import Mathlib

set_option maxRecDepth 4000

/-!
Verification of the streaming ingestion and windowed-access engine of
`theeasyapp`.

The development shallowly embeds two source components:

* the streaming CSV parser `parseStream` / `parseLine`
  (`src/lib/streamingCSV.ts`): byte chunks are modelled as lists of already
  decoded characters (the stateful `TextDecoder` that re-assembles multi-byte
  sequences split across chunk boundaries is external to the parser logic);
  the parser state mirrors `carry`, `inQuotes`, `headerParsed`, the emitted
  header (`onColumns`) and the concatenation of the emitted `onRows` batches
  (`flushed`) together with the pending `batch`;
* the table worker chunk cache (`src/src/workers/tableWorker.ts`): the JS
  `Map`s are modelled as association lists with unique keys (insertion
  order preserved, as JS `Map` does), `Date.now()` is an explicit `now`
  argument, and the network is an oracle: a fetch completion carries the
  decoded response payload;
* the flow-control protocol of the CSV worker (`src/src/workers/csvWorker.ts`)
  as a labelled transition system over the worker's suspension points
  (`waitForAck` / `waitForResume`).
-/

/-! ### Streaming CSV parser (src/lib/streamingCSV.ts) -/

/-- Parser state of one `parseStream` call.  `flushed` is the concatenation of
all batches passed to `onRows` so far; `batch` is the pending not-yet-flushed
batch; `header` is the argument passed to `onColumns` (if it fired). -/
structure PState where
  carry : List Char
  inQuotes : Bool
  headerParsed : Bool
  header : Option (List (List Char))
  flushed : List (List (List Char))
  batch : List (List (List Char))
deriving DecidableEq

/-- Initial parser state of `parseStream`. -/
def initParse : PState := ⟨[], false, false, none, [], []⟩

/-- Field-splitting loop of `parseLine`: `q` is the local quote flag, `field`
the field being built, `acc` the fields already pushed. -/
def parseLineAux : Bool → List Char → List (List Char) → List Char → List (List Char)
  | _, field, acc, [] => acc ++ [field]
  | q, field, acc, [c] =>
    if c = '"' then parseLineAux (!q) field acc []
    else if c = ',' ∧ q = false then parseLineAux q [] (acc ++ [field]) []
    else parseLineAux q (field ++ [c]) acc []
  | q, field, acc, c :: c2 :: rest =>
    if c = '"' ∧ q = true ∧ c2 = '"' then parseLineAux true (field ++ ['"']) acc rest
    else if c = '"' then parseLineAux (!q) field acc (c2 :: rest)
    else if c = ',' ∧ q = false then parseLineAux q [] (acc ++ [field]) (c2 :: rest)
    else parseLineAux q (field ++ [c]) acc (c2 :: rest)

/-- `parseLine`: split one completed record into fields. -/
def parseLine (line : List Char) : List (List Char) :=
  parseLineAux false [] [] line

/-- Record extraction at a newline: `carry.endsWith("\r\n") ? slice(0,-2) :
slice(0,-1)` (the carry always ends with the just-appended newline). -/
def stripNewline (carry : List Char) : List Char :=
  if List.isSuffixOf ['\r', '\n'] carry then carry.dropLast.dropLast else carry.dropLast

/-- Record-boundary handling of `parseStream`: runs when an unquoted newline
has just been appended to the carry.  An empty record before the header is
skipped; the first non-skipped record becomes the header; later records are
pushed onto the batch, which is flushed once it reaches `batchSize`. -/
def endRecord (batchSize : Nat) (s : PState) : PState :=
  let record := stripNewline s.carry
  if record.length > 0 ∨ s.headerParsed then
    if s.headerParsed then
      let b := s.batch ++ [parseLine record]
      if batchSize ≤ b.length then
        { s with carry := [], batch := [], flushed := s.flushed ++ b }
      else
        { s with carry := [], batch := b }
    else
      { s with carry := [], headerParsed := true, header := some (parseLine record) }
  else
    { s with carry := [] }

/-- One character of the `parseStream` scanning loop, without the one-character
escape lookahead: a quote toggles `inQuotes`, an unquoted newline ends the
record, anything else is appended to the carry. -/
def stepChar (batchSize : Nat) (s : PState) (c : Char) : PState :=
  let s1 := { s with carry := s.carry ++ [c] }
  if c = '"' then { s1 with inQuotes := !s.inQuotes }
  else if s.inQuotes = false ∧ c = '\n' then endRecord batchSize s1
  else s1

/-- The scanning loop of `parseStream` over one decoded text chunk, with the
source's lookahead: a `"` immediately followed by another `"` inside quotes is
consumed as one escaped literal quote (both characters go to the carry and the
index advances by two). -/
def processChars (batchSize : Nat) : PState → List Char → PState
  | s, [] => s
  | s, [c] => stepChar batchSize s c
  | s, c :: c2 :: rest =>
    if c = '"' ∧ s.inQuotes = true ∧ c2 = '"' then
      processChars batchSize { s with carry := s.carry ++ ['"', '"'] } rest
    else
      processChars batchSize (stepChar batchSize s c) (c2 :: rest)

/-- End-of-stream handling of `parseStream`: non-empty carry outside quotes is
parsed as a final record (header if none was emitted, row otherwise); then the
pending batch is flushed.  Carry inside an unterminated quote is dropped. -/
def finalizeStream (s : PState) : PState :=
  let s1 :=
    if s.carry ≠ [] ∧ s.inQuotes = false then
      if s.headerParsed = false then { s with header := some (parseLine s.carry) }
      else { s with batch := s.batch ++ [parseLine s.carry] }
    else s
  { s1 with flushed := s1.flushed ++ s1.batch, batch := [] }

/-- Run the scanning loop over a list of decoded chunks. -/
def runChunks (batchSize : Nat) (chunks : List (List Char)) : PState :=
  chunks.foldl (processChars batchSize) initParse

/-- Whole `parseStream` call on a stream of decoded chunks. -/
def parseCSV (batchSize : Nat) (chunks : List (List Char)) : PState :=
  finalizeStream (runChunks batchSize chunks)

/-- The §8 quote-correctness input: header `h`, then one record whose single
field is `"a,b\nc""d"` (embedded delimiter, embedded line break, escaped
quote). -/
def c3Input : List Char := ['h', '\n', '"', 'a', ',', 'b', '\n', 'c', '"', '"', 'd', '"', '\n']

/-- Expected literal field value `a,b\nc"d`. -/
def c3Field : List Char := ['a', ',', 'b', '\n', 'c', '"', 'd']

/-- First chunk of a split of `c3Input` that cuts between the two quote
characters of the escaped quote. -/
def c3Split1 : List Char := ['h', '\n', '"', 'a', ',', 'b', '\n', 'c', '"']

/-- Second chunk of the split of `c3Input`. -/
def c3Split2 : List Char := ['"', 'd', '"', '\n']

/-- Input ending inside an unterminated quoted field: header `h`, then
`"abc` with the quote never closed before end of stream. -/
def c5Input : List Char := ['h', '\n', '"', 'a', 'b', 'c']

/-! ### Windowed chunk cache (src/src/workers/tableWorker.ts)

JS `Map`s are modelled as association lists (insertion order preserved, as a
JS `Map` does); `Map.get` is `mapGet`, `Map.set` is `mapSet` (update in place
or append), `Map.delete` is `mapDelete`.  `Date.now()` is an explicit `now`
argument.  The network is an oracle: a completed fetch carries the decoded
response payload. -/

/-- `Map.get`. -/
def mapGet {α : Type} (m : List (Nat × α)) (k : Nat) : Option α :=
  (m.find? (fun p => p.1 == k)).map (fun p => p.2)

/-- `Map.has` (the worker tests presence via `get`). -/
def mapContains {α : Type} (m : List (Nat × α)) (k : Nat) : Bool :=
  (mapGet m k).isSome

/-- `Map.set`: overwrite in place when the key is present, append otherwise. -/
def mapSet {α : Type} (m : List (Nat × α)) (k : Nat) (v : α) : List (Nat × α) :=
  if mapContains m k then m.map (fun p => if p.1 == k then (k, v) else p)
  else m ++ [(k, v)]

/-- `Map.delete`. -/
def mapDelete {α : Type} (m : List (Nat × α)) (k : Nat) : List (Nat × α) :=
  m.filter (fun p => p.1 != k)

/-- Per-chunk metadata (`ChunkMetadata`). -/
structure ChunkMeta where
  accessCount : Nat
  lastAccess : Nat
deriving DecidableEq

/-- The worker's mutable `state` (`WorkerState`); the `AbortController` is not
modelled. -/
structure WState where
  table : String
  chunkSize : Nat
  columns : List (String × String)
  rowCount : Nat
  chunks : List (Nat × List (List String))
  chunkAccessOrder : List Nat
  chunkMetadata : List (Nat × ChunkMeta)
  chunkETags : List (Nat × String)
  inflight : List Nat
  filters : List (Nat × String)
  sort : Option (Nat × String)
deriving DecidableEq

/-- The worker's initial state. -/
def initW : WState :=
  ⟨"dataset", 2000, [], 0, [], [], [], [], [], [], none⟩

/-- `trackChunkAccess`: move the chunk to the back of the recency list and
bump its access count / last-access time. -/
def trackChunkAccess (now k : Nat) (s : WState) : WState :=
  let meta := (mapGet s.chunkMetadata k).getD ⟨0, 0⟩
  { s with
    chunkAccessOrder := s.chunkAccessOrder.erase k ++ [k],
    chunkMetadata := mapSet s.chunkMetadata k ⟨meta.accessCount + 1, now⟩ }

/-- Eviction score `accessCount * 1000 - age` where `age = now - lastAccess`. -/
def scoreOf (now : Nat) (m : ChunkMeta) : Int :=
  (m.accessCount : Int) * 1000 - ((now : Int) - (m.lastAccess : Int))

/-- The scan of `evictOldChunks` for the lowest-scoring chunk: walk the
recency list, skip entries without metadata, keep the first strict minimum
(the initial `lowestScore = Infinity` is the `none` accumulator). -/
def findLowestAux (now : Nat) (meta : List (Nat × ChunkMeta)) :
    List Nat → Option (Nat × Int) → Option (Nat × Int)
  | [], best => best
  | k :: rest, best =>
    match mapGet meta k with
    | none => findLowestAux now meta rest best
    | some m =>
      let sc := scoreOf now m
      match best with
      | none => findLowestAux now meta rest (some (k, sc))
      | some best' =>
        if sc < best'.2 then findLowestAux now meta rest (some (k, sc))
        else findLowestAux now meta rest (some best')

/-- The lowest-scoring chunk of one eviction round (`oldestChunk`). -/
def findLowest (now : Nat) (s : WState) : Option Nat :=
  (findLowestAux now s.chunkMetadata s.chunkAccessOrder none).map (fun p => p.1)

/-- One iteration of the `evictOldChunks` loop body: drop the lowest-scoring
chunk, or fall back to shifting the oldest-access entry when no candidate has
metadata. -/
def evictOnce (now : Nat) (s : WState) : WState :=
  match findLowest now s with
  | some k =>
    { s with chunks := mapDelete s.chunks k,
             chunkMetadata := mapDelete s.chunkMetadata k,
             chunkETags := mapDelete s.chunkETags k,
             chunkAccessOrder := s.chunkAccessOrder.erase k }
  | none =>
    match s.chunkAccessOrder with
    | [] => s
    | k :: rest =>
      { s with chunkAccessOrder := rest,
               chunks := mapDelete s.chunks k,
               chunkMetadata := mapDelete s.chunkMetadata k,
               chunkETags := mapDelete s.chunkETags k }

/-- The `while` loop of `evictOldChunks`, with fuel.  Every iteration under
the guard removes exactly one recency-list entry, so fuel equal to the
recency list's length (as supplied by `evictOldChunks`) never runs out before
the guard turns false. -/
def evictLoop (maxCached now : Nat) : Nat → WState → WState
  | 0, s => s
  | fuel + 1, s =>
    if maxCached ≤ s.chunks.length ∧ s.chunkAccessOrder ≠ [] then
      evictLoop maxCached now fuel (evictOnce now s)
    else s

/-- `evictOldChunks`: loop while `chunks.size >= MAX_CACHED_CHUNKS` and the
recency list is non-empty. -/
def evictOldChunks (maxCached now : Nat) (s : WState) : WState :=
  evictLoop maxCached now s.chunkAccessOrder.length s

/-- Decoded response of one chunk fetch (the network oracle). -/
structure FetchPayload where
  is304 : Bool
  etag : Option String
  columns : List (String × String)
  rows : List (List String)
  rowCount : Option Nat
deriving DecidableEq

/-- Tail of a non-304 `fetchChunk` response: run eviction, insert the fetched
rows under key `k`, and mark the chunk accessed. -/
def insertChunk (maxCached now k : Nat) (rows : List (List String)) (t : WState) : WState :=
  let s4 := evictOldChunks maxCached now t
  trackChunkAccess now k { s4 with chunks := mapSet s4.chunks k rows }

/-- Metadata-recording part of a non-304 `fetchChunk` response: store the
response etag when present, adopt non-empty response columns, adopt a supplied
row count. -/
def recordMeta (k : Nat) (p : FetchPayload) (s : WState) : WState :=
  let s1 := match p.etag with
    | some e => { s with chunkETags := mapSet s.chunkETags k e }
    | none => s
  let s2 := if p.columns ≠ [] then { s1 with columns := p.columns } else s1
  match p.rowCount with
  | some rc => { s2 with rowCount := rc }
  | none => s2

/-- Completion of `fetchChunk` for chunk `k`: on 304 only recency is
refreshed; otherwise the etag / columns / rowCount are recorded, eviction
runs, and the chunk is inserted and marked accessed.  The trailing `finally`
of `ensureChunk` removes `k` from `inflight`. -/
def fetchChunk (maxCached now k : Nat) (p : FetchPayload) (s : WState) : WState :=
  if p.is304 then
    let s1 := trackChunkAccess now k s
    { s1 with inflight := s1.inflight.erase k }
  else
    let s5 := insertChunk maxCached now k p.rows (recordMeta k p s)
    { s5 with inflight := s5.inflight.erase k }

/-- Whether `ensureChunk` issues a network fetch for `k`: only when the chunk
is neither cached nor already in flight. -/
def ensureChunkFetches (s : WState) (k : Nat) : Bool :=
  !(mapContains s.chunks k) && !(decide (k ∈ s.inflight))

/-- `ensureChunk` up to its first suspension point: if a fetch is issued the
key is registered in `inflight`; otherwise the call joins the cached chunk or
the existing in-flight fetch and changes nothing. -/
def ensureChunk (s : WState) (k : Nat) : WState :=
  if ensureChunkFetches s k then { s with inflight := s.inflight ++ [k] } else s

/-- Result of `gatherRows`: the delivered `{index, values}` pairs, the
reported row count, and the state after the recency updates. -/
structure GatherResult where
  rows : List (Nat × List String)
  rowCount : Nat
  state : WState
deriving DecidableEq

/-- One iteration of the `gatherRows` loop: locate the chunk containing
`rowIndex`; when cached, refresh its recency and collect the row when the
in-chunk offset exists. -/
def gatherStep (now : Nat) (acc : List (Nat × List String) × WState)
    (rowIndex : Nat) : List (Nat × List String) × WState :=
  let ci := rowIndex / acc.2.chunkSize
  match mapGet acc.2.chunks ci with
  | none => acc
  | some chunk =>
    let st := trackChunkAccess now ci acc.2
    match chunk.get? (rowIndex - ci * st.chunkSize) with
    | none => (acc.1, st)
    | some values => (acc.1 ++ [(rowIndex, values)], st)

/-- `gatherRows(start, end)`: iterate `rowIndex` from `start` to
`Math.max(end, rowCount - 1)`, collect cached rows, refresh recency of the
chunks touched, and infer the row count defensively. -/
def gatherRows (now : Nat) (s : WState) (start e : Nat) : GatherResult :=
  let total := s.rowCount
  let maxIdx := Nat.max e (total - 1)
  let idxs := List.range' start (maxIdx + 1 - start)
  let r := idxs.foldl (gatherStep now) ([], s)
  let lastLoadedIndex := match r.1.getLast? with
    | some pr => pr.1 + 1
    | none => 0
  let inferred := Nat.max (Nat.max total lastLoadedIndex) (e + 1)
  ⟨r.1, if total > 0 then total else inferred, r.2⟩

/-- One reported row index of `handleInvalidate`: when the index is a valid
non-negative number, drop the chunk containing it from the cache, the
in-flight table and the recency list (metadata and etags are left behind, as
in the source). -/
def invalidateStep (st : WState) (r : Int) : WState :=
  if 0 ≤ r then
    let ci := r.toNat / st.chunkSize
    { st with chunks := mapDelete st.chunks ci,
              inflight := st.inflight.erase ci,
              chunkAccessOrder := st.chunkAccessOrder.erase ci }
  else st

/-- `handleInvalidate`: apply `invalidateStep` to every reported row index. -/
def handleInvalidate (rows : List Int) (s : WState) : WState :=
  rows.foldl invalidateStep s

/-- Chunk keys affected by an invalidation message, relative to a chunk
size. -/
def affectedChunks (chunkSize : Nat) (rows : List Int) : List Nat :=
  rows.filterMap (fun r => if 0 ≤ r then some (r.toNat / chunkSize) else none)

/-- The `init` message. -/
structure InitMsg where
  table : String
  chunkSize : Int
  columns : Option (List (String × String))
  rowCount : Option Nat
  filters : Option (List (Nat × String))
  sort : Option (Nat × String)
deriving DecidableEq

/-- The cache-clearing block shared by `reset` and a criteria-changing
`init`. -/
def clearCache (s : WState) : WState :=
  { s with chunks := [], chunkAccessOrder := [], chunkMetadata := [],
           chunkETags := [], inflight := [] }

/-- `handleInit`: record table and chunk size, drop the whole cache when the
filter or sort criteria changed, then adopt the supplied columns and row
count. -/
def handleInit (msg : InitMsg) (s : WState) : WState :=
  let cs := if 0 < msg.chunkSize then msg.chunkSize.toNat else 2000
  let nf := msg.filters.getD []
  let ns := msg.sort
  let changed := decide (s.filters ≠ nf) || decide (s.sort ≠ ns)
  let s1 := { s with table := msg.table, chunkSize := cs, filters := nf, sort := ns }
  let s2 := if changed then clearCache s1 else s1
  { s2 with columns := msg.columns.getD s2.columns,
            rowCount := msg.rowCount.getD s2.rowCount }

/-- Atomic cache-state mutations of the worker.  The worker is
single-threaded; its handlers suspend only at network awaits, so every
interleaved execution is a sequence of these actions.  `fetchDone` /
`fetchFail` are the completion of a chunk fetch with its response payload;
`ensure` is `ensureChunk` up to its first suspension point; `gather` is a
`gatherRows` pass. -/
inductive WAct where
  | configure (msg : InitMsg)
  | ensure (k : Nat)
  | fetchDone (k : Nat) (p : FetchPayload) (now : Nat)
  | fetchFail (k : Nat)
  | gather (start e now : Nat)
  | invalidate (rows : List Int)
  | reset

/-- Apply one atomic worker action. -/
def applyWAct (maxCached : Nat) (s : WState) : WAct → WState
  | .configure msg => handleInit msg s
  | .ensure k => ensureChunk s k
  | .fetchDone k p now => fetchChunk maxCached now k p s
  | .fetchFail k => { s with inflight := s.inflight.erase k }
  | .gather start e now => (gatherRows now s start e).state
  | .invalidate rows => handleInvalidate rows s
  | .reset => clearCache s

/-- Run the worker from its initial state over a sequence of actions. -/
def runWorker (maxCached : Nat) (acts : List WAct) : WState :=
  acts.foldl (applyWAct maxCached) initW

/-- Actions that can remove a key from `inflight`: completion of that key's
fetch, an invalidation, a reset, or a (possibly criteria-changing) `init`. -/
def removesInflightKey (k : Nat) : WAct → Prop
  | .fetchDone k2 _ _ => k2 = k
  | .fetchFail k2 => k2 = k
  | .invalidate _ => True
  | .reset => True
  | .configure _ => True
  | _ => False

/-- Cache-bound invariant: the cache never holds more than `maxCached`
chunks, and every cached chunk key is on the recency list. -/
def WInv (maxCached : Nat) (s : WState) : Prop :=
  s.chunks.length ≤ maxCached ∧
    ∀ k, mapGet s.chunks k ≠ none → k ∈ s.chunkAccessOrder

/-- Cached state exhibiting the `gatherRows` overrun: three one-row chunks
cached, row count 3. -/
def c6State : WState :=
  { initW with chunkSize := 1, rowCount := 3,
               chunks := [(0, [["r0"]]), (1, [["r1"]]), (2, [["r2"]])],
               chunkAccessOrder := [0, 1, 2] }

/-- Invalidation example state: chunk size 100, chunks 0 and 1 cached. -/
def c9State : WState :=
  { initW with chunkSize := 100,
               chunks := [(0, [["a"]]), (1, [["b"]])],
               chunkAccessOrder := [0, 1] }

/-! ### Flow control protocol (src/src/workers/csvWorker.ts)

The producer (`parseStream` inside the worker) suspends at `waitForAck`
after posting each batch and at `waitForResume` after an acknowledgement
that arrives while `paused` is set.  The transition system records the
producer's suspension point, the `paused` flag and `nextBatchId`; events are
the producer's reads and batch posts and the consumer's `ack` / `pause` /
`resume` messages.  Abort is the cancellation path and is not modelled. -/

/-- Events of one load operation. -/
inductive CsvEvent where
  | read
  | post (id : Nat)
  | ack (id : Nat)
  | pause
  | resume
deriving DecidableEq

/-- Producer suspension point: `producing n` is parsing with `n` batches
still to be posted before the next read; `awaitingAck` is suspended in
`waitForAck`; `awaitingResume` is suspended in `waitForResume`. -/
inductive CsvPc where
  | producing (pending : Nat)
  | awaitingAck (pending : Nat)
  | awaitingResume (pending : Nat)
deriving DecidableEq

/-- Configuration of the flow-control system. -/
structure CsvCfg where
  pc : CsvPc
  paused : Bool
  nextBatchId : Nat
deriving DecidableEq

/-- Labelled transitions of the flow-control protocol, read off the worker's
message handler and the `onRows` callback: a read happens only between
batches; `++nextBatchId` tags each post; any `ack` message releases
`waitForAck` (the handler never inspects the ack's id); the `paused` flag is
consulted when the ack arrives; `resume` always clears `paused` and releases
`waitForResume` when suspended there. -/
inductive CsvStep : CsvCfg → CsvEvent → CsvCfg → Prop where
  | read (n : Nat) (p : Bool) (id : Nat) :
      CsvStep ⟨.producing 0, p, id⟩ .read ⟨.producing n, p, id⟩
  | post (n : Nat) (p : Bool) (id : Nat) :
      CsvStep ⟨.producing (n + 1), p, id⟩ (.post (id + 1)) ⟨.awaitingAck n, p, id + 1⟩
  | ackRun (n id j : Nat) :
      CsvStep ⟨.awaitingAck n, false, id⟩ (.ack j) ⟨.producing n, false, id⟩
  | ackPause (n id j : Nat) :
      CsvStep ⟨.awaitingAck n, true, id⟩ (.ack j) ⟨.awaitingResume n, true, id⟩
  | ackNoop (pc : CsvPc) (p : Bool) (id j : Nat) :
      (∀ n, pc ≠ .awaitingAck n) → CsvStep ⟨pc, p, id⟩ (.ack j) ⟨pc, p, id⟩
  | pauseSig (pc : CsvPc) (p : Bool) (id : Nat) :
      CsvStep ⟨pc, p, id⟩ .pause ⟨pc, true, id⟩
  | resumeRelease (n : Nat) (p : Bool) (id : Nat) :
      CsvStep ⟨.awaitingResume n, p, id⟩ .resume ⟨.producing n, false, id⟩
  | resumeNoop (pc : CsvPc) (p : Bool) (id : Nat) :
      (∀ n, pc ≠ .awaitingResume n) → CsvStep ⟨pc, p, id⟩ .resume ⟨pc, false, id⟩

/-- Reflexive-transitive closure along a list of events. -/
inductive CsvSteps : CsvCfg → List CsvEvent → CsvCfg → Prop where
  | nil (c : CsvCfg) : CsvSteps c [] c
  | cons {c c1 c2 : CsvCfg} {e : CsvEvent} {evs : List CsvEvent} :
      CsvStep c e c1 → CsvSteps c1 evs c2 → CsvSteps c (e :: evs) c2

/-- Initial configuration of one load operation. -/
def csvInit : CsvCfg := ⟨.producing 0, false, 0⟩

/-- Claim C8 as stated: in any run, between posting batch `i` and the arrival
of an ack carrying id `i`, the producer performs no read. -/
def C8OrigClaim : Prop :=
  ∀ (evs : List CsvEvent) (c : CsvCfg), CsvSteps csvInit evs c →
    ∀ (i : Nat) (xs ys zs : List CsvEvent),
      evs = xs ++ [CsvEvent.post i] ++ ys ++ zs →
      CsvEvent.ack i ∉ ys → CsvEvent.read ∉ ys

theorem processChars_eq_foldl_aux (bs : Nat) :
    ∀ (n : Nat) (l : List Char), l.length ≤ n → ∀ s : PState,
      processChars bs s l = l.foldl (stepChar bs) s := by
  intro n
  induction n with
  | zero =>
    intro l hl s
    have : l = [] := List.eq_nil_of_length_eq_zero (Nat.le_zero.mp hl)
    subst this; rfl
  | succ n ih =>
    intro l hl s
    match l with
    | [] => rfl
    | [c] => rfl
    | c :: c2 :: rest =>
      by_cases h : c = '"' ∧ s.inQuotes = true ∧ c2 = '"'
      · have hcur : processChars bs s (c :: c2 :: rest)
            = processChars bs { s with carry := s.carry ++ ['"', '"'] } rest := by
          simp [processChars, h]
        rw [hcur, ih rest (by simp at hl; omega)]
        obtain ⟨hc, hq, hc2⟩ := h
        subst hc; subst hc2
        have : stepChar bs (stepChar bs s '"') '"'
            = { s with carry := s.carry ++ ['"', '"'] } := by
          simp [stepChar, hq]
        simp [List.foldl_cons, this]
      · have hcur : processChars bs s (c :: c2 :: rest)
            = processChars bs (stepChar bs s c) (c2 :: rest) := by
          simp [processChars, h]
        rw [hcur, ih (c2 :: rest) (by simp at hl ⊢; omega)]
        rfl

theorem processChars_eq_foldl (bs : Nat) (l : List Char) (s : PState) :
    processChars bs s l = l.foldl (stepChar bs) s :=
  processChars_eq_foldl_aux bs l.length l (Nat.le_refl _) s

theorem runChunks_eq_join (bs : Nat) (chunks : List (List Char)) :
    runChunks bs chunks = runChunks bs [chunks.flatten] := by
  have key : ∀ (cs : List (List Char)) (s : PState),
      cs.foldl (processChars bs) s = processChars bs s cs.flatten := by
    intro cs
    induction cs with
    | nil => intro s; rfl
    | cons c rest ih =>
      intro s
      rw [List.foldl_cons, ih, List.flatten_cons]
      simp only [processChars_eq_foldl]
      rw [List.foldl_append]
  unfold runChunks
  rw [key]
  rfl

theorem parseCSV_eq_join (bs : Nat) (chunks : List (List Char)) :
    parseCSV bs chunks = parseCSV bs [chunks.flatten] := by
  unfold parseCSV
  rw [runChunks_eq_join]

/-- Claim C1: for every delimited input and every way of splitting it into
stream chunks, `parseStream` on the split stream emits, via `onRows`, batches
whose concatenation equals the rows produced on the single-chunk stream, and
emits the same header via `onColumns`.  (Proved for all inputs, well-formed or
not.) -/
theorem parseStream_chunk_boundary_independence (bs : Nat) (chunks : List (List Char)) :
    (parseCSV bs chunks).flushed = (parseCSV bs [chunks.flatten]).flushed ∧
    (parseCSV bs chunks).header = (parseCSV bs [chunks.flatten]).header := by
  have e := parseCSV_eq_join bs chunks
  exact ⟨by rw [e], by rw [e]⟩

/-- Claim C3: the field `"a,b\nc""d"` (embedded delimiter, embedded line
break, escaped quote) parses to the single literal field value `a,b\nc"d`,
for every way of splitting the input across stream chunks. -/
theorem parseStream_quote_correctness (chunks : List (List Char))
    (h : chunks.flatten = c3Input) :
    (parseCSV 2000 chunks).flushed = [[c3Field]] ∧
    (parseCSV 2000 chunks).header = some [['h']] := by
  rw [parseCSV_eq_join, h]
  exact ⟨by decide, by decide⟩

theorem parseStream_quote_correctness_witness :
    ([c3Split1, c3Split2].flatten = c3Input) ∧
    ((parseCSV 2000 [c3Split1, c3Split2]).flushed = [[c3Field]] ∧
      (parseCSV 2000 [c3Split1, c3Split2]).header = some [['h']]) :=
  ⟨by decide, parseStream_quote_correctness [c3Split1, c3Split2] (by decide)⟩

/-- Claim C4 counterexample: on the input stream consisting of a single empty
line, `parseStream` emits no header at all — the empty first record does not
become the header, contradicting the claim that `onColumns` fires for the
first record even when it is empty. -/
theorem empty_first_record_emits_no_header :
    (parseCSV 2000 [['\n']]).header = none := by decide

/-- Claim C4 amended: a record boundary reached before any header makes the
record the header only when the record is non-empty; empty records arriving
before the header are silently skipped, so any run of leading blank lines
leaves the parse unchanged. -/
theorem leading_blank_records_skipped (bs n : Nat) (chunks : List (List Char)) :
    parseCSV bs (List.replicate n '\n' :: chunks) = parseCSV bs chunks := by
  have hstep : stepChar bs initParse '\n' = initParse := rfl
  have hblank : processChars bs initParse (List.replicate n '\n') = initParse := by
    rw [processChars_eq_foldl]
    induction n with
    | zero => rfl
    | succ k ih => rw [List.replicate_succ, List.foldl_cons, hstep]; exact ih
  unfold parseCSV runChunks
  rw [List.foldl_cons, hblank]

/-- Claim C5 counterexample: at end of stream the carry of an unterminated
quoted field (`"abc` after header `h`) is non-empty and still inside quotes,
and it is silently discarded — no row is delivered for it, contradicting the
claim that such carry text is parsed literally and delivered. -/
theorem unterminated_quote_carry_dropped :
    (runChunks 2000 [c5Input]).carry = ['"', 'a', 'b', 'c'] ∧
    (runChunks 2000 [c5Input]).inQuotes = true ∧
    (parseCSV 2000 [c5Input]).flushed = [] ∧
    (parseCSV 2000 [c5Input]).header = some [['h']] := by decide

/-- Claim C5 amended: at end of stream, non-empty carry outside quotes is
parsed as a final partial record and flushed (as the header when none was
emitted, as a row otherwise), while carry left inside an unterminated quoted
field is silently discarded — only the rows already in the pending batch are
flushed and the header is unchanged. -/
theorem end_of_stream_carry_flush (s : PState) :
    (s.inQuotes = false → s.carry ≠ [] → s.headerParsed = true →
      (finalizeStream s).flushed = s.flushed ++ s.batch ++ [parseLine s.carry]) ∧
    (s.inQuotes = false → s.carry ≠ [] → s.headerParsed = false →
      (finalizeStream s).header = some (parseLine s.carry) ∧
      (finalizeStream s).flushed = s.flushed ++ s.batch) ∧
    (s.inQuotes = true →
      (finalizeStream s).flushed = s.flushed ++ s.batch ∧
      (finalizeStream s).header = s.header) := by
  refine ⟨?_, ?_, ?_⟩
  · intro h1 h2 h3
    simp [finalizeStream, h1, h2, h3]
  · intro h1 h2 h3
    simp [finalizeStream, h1, h2, h3]
  · intro h1
    simp [finalizeStream, h1]

theorem end_of_stream_carry_flush_witness :
    (finalizeStream ⟨['x'], false, true, none, [], []⟩).flushed = [[['x']]] := by
  have h := (end_of_stream_carry_flush ⟨['x'], false, true, none, [], []⟩).1 rfl (by decide) rfl
  rw [h]
  decide

/-- Claim C10: once the header has been emitted, a blank record (an empty line
terminated outside quotes) is not skipped — it is pushed as a row consisting
of exactly one empty field; a blank record arriving before the header is
silently dropped, leaving the parser state unchanged. -/
theorem blank_record_after_header (bs : Nat) (s : PState)
    (hq : s.inQuotes = false) (hc : s.carry = []) :
    (s.headerParsed = true →
      (processChars bs s ['\n']).flushed ++ (processChars bs s ['\n']).batch
        = s.flushed ++ s.batch ++ [[[]]]) ∧
    (s.headerParsed = false → processChars bs s ['\n'] = s) := by
  obtain ⟨c0, q0, h0, hd0, f0, b0⟩ := s
  simp only at hq hc
  subst hq; subst hc
  constructor
  · intro hh
    simp only at hh
    subst hh
    show (stepChar bs _ '\n').flushed ++ (stepChar bs _ '\n').batch = _
    simp [stepChar, endRecord, stripNewline, parseLine, parseLineAux]
    split
    · simp
    · simp
  · intro hh
    simp only at hh
    subst hh
    show stepChar bs _ '\n' = _
    simp [stepChar, endRecord, stripNewline]

theorem blank_record_after_header_witness :
    (processChars 2000 ⟨[], false, true, none, [], []⟩ ['\n']).flushed ++
      (processChars 2000 ⟨[], false, true, none, [], []⟩ ['\n']).batch = [[[]]] := by
  have h := (blank_record_after_header 2000 ⟨[], false, true, none, [], []⟩ rfl rfl).1 rfl
  rw [h]
  decide

theorem mapGet_cons {α : Type} (p : Nat × α) (m : List (Nat × α)) (k : Nat) :
    mapGet (p :: m) k = if p.1 = k then some p.2 else mapGet m k := by
  by_cases h : p.1 = k
  · rw [mapGet, List.find?_cons_of_pos _ (by simp [h])]
    simp [h]
  · rw [mapGet, List.find?_cons_of_neg _ (by simp [h])]
    simp [mapGet, h]

theorem mapGet_mapDelete {α : Type} (m : List (Nat × α)) (k j : Nat) :
    mapGet (mapDelete m k) j = if j = k then none else mapGet m j := by
  induction m with
  | nil => simp [mapDelete, mapGet]
  | cons p rest ih =>
    by_cases hpk : p.1 = k
    · have hstep : mapDelete (p :: rest) k = mapDelete rest k := by
        simp [mapDelete, List.filter_cons, hpk]
      rw [hstep, ih, mapGet_cons]
      by_cases hjk : j = k
      · simp [hjk]
      · have hpj : ¬ p.1 = j := by rw [hpk]; exact fun hh => hjk hh.symm
        simp [hjk, hpj]
    · have hstep : mapDelete (p :: rest) k = p :: mapDelete rest k := by
        simp [mapDelete, List.filter_cons, hpk]
      rw [hstep, mapGet_cons, mapGet_cons, ih]
      by_cases hpj : p.1 = j
      · have hjk : ¬ j = k := fun hh => hpk (hpj.trans hh)
        simp [hpj, hjk]
      · simp [hpj]

theorem mapGet_map_overwrite {α : Type} (m : List (Nat × α)) (k : Nat) (v : α)
    (j : Nat) (h : j ≠ k) :
    mapGet (m.map (fun p => if p.1 == k then (k, v) else p)) j = mapGet m j := by
  induction m with
  | nil => rfl
  | cons p rest ih =>
    rw [List.map_cons]
    by_cases hpk : p.1 = k
    · have himg : (if p.1 == k then (k, v) else p) = (k, v) := by simp [hpk]
      rw [himg, mapGet_cons, mapGet_cons]
      have hkj : ¬ k = j := fun hh => h hh.symm
      have hpj : ¬ p.1 = j := by rw [hpk]; exact hkj
      rw [if_neg hkj, if_neg hpj]
      exact ih
    · have himg : (if p.1 == k then (k, v) else p) = p := by simp [hpk]
      rw [himg, mapGet_cons, mapGet_cons, ih]

theorem mapGet_append_single_ne {α : Type} (m : List (Nat × α)) (k : Nat) (v : α)
    (j : Nat) (h : j ≠ k) :
    mapGet (m ++ [(k, v)]) j = mapGet m j := by
  induction m with
  | nil =>
    have hkj : ¬ k = j := fun hh => h hh.symm
    simp [mapGet_cons, hkj, mapGet]
  | cons p rest ih => rw [List.cons_append, mapGet_cons, mapGet_cons, ih]

theorem mapGet_mapSet_ne {α : Type} (m : List (Nat × α)) (k : Nat) (v : α)
    (j : Nat) (h : j ≠ k) :
    mapGet (mapSet m k v) j = mapGet m j := by
  unfold mapSet
  split
  · exact mapGet_map_overwrite m k v j h
  · exact mapGet_append_single_ne m k v j h

theorem mapSet_length_le {α : Type} (m : List (Nat × α)) (k : Nat) (v : α) :
    (mapSet m k v).length ≤ m.length + 1 := by
  unfold mapSet
  split
  · simp
  · simp

theorem mapDelete_length_le {α : Type} (m : List (Nat × α)) (k : Nat) :
    (mapDelete m k).length ≤ m.length :=
  List.length_filter_le _ _

theorem mapGet_fst_head {α : Type} (p : Nat × α) (m : List (Nat × α)) :
    mapGet (p :: m) p.1 ≠ none := by
  rw [mapGet_cons]
  simp

theorem chunks_nil_of_order_nil (s : WState)
    (hsub : ∀ k, mapGet s.chunks k ≠ none → k ∈ s.chunkAccessOrder)
    (hord : s.chunkAccessOrder = []) : s.chunks = [] := by
  cases hm : s.chunks with
  | nil => rfl
  | cons p rest =>
    exfalso
    have hmem := hsub p.1 (by rw [hm]; exact mapGet_fst_head p rest)
    rw [hord] at hmem
    exact absurd hmem (List.not_mem_nil _)

theorem mem_erase_append_self {j k : Nat} {l : List Nat} (h : j ∈ l ∨ j = k) :
    j ∈ l.erase k ++ [k] := by
  rcases h with h | h
  · by_cases hjk : j = k
    · subst hjk; exact List.mem_append_right _ (List.mem_singleton_self _)
    · exact List.mem_append_left _ ((List.mem_erase_of_ne hjk).mpr h)
  · subst h; exact List.mem_append_right _ (List.mem_singleton_self _)

theorem winv_track (maxCached now k : Nat) (s : WState) (h : WInv maxCached s) :
    WInv maxCached (trackChunkAccess now k s) := by
  obtain ⟨hlen, hsub⟩ := h
  refine ⟨hlen, ?_⟩
  intro j hj
  exact mem_erase_append_self (Or.inl (hsub j hj))

theorem findLowestAux_mem (now : Nat) (meta : List (Nat × ChunkMeta)) :
    ∀ (order : List Nat) (best : Option (Nat × Int)) (pr : Nat × Int),
      findLowestAux now meta order best = some pr → best = some pr ∨ pr.1 ∈ order := by
  intro order
  induction order with
  | nil => intro best pr h; exact Or.inl h
  | cons k rest ih =>
    intro best pr h
    rw [findLowestAux] at h
    cases hm : mapGet meta k with
    | none =>
      rw [hm] at h
      rcases ih best pr h with h1 | h1
      · exact Or.inl h1
      · exact Or.inr (List.mem_cons_of_mem _ h1)
    | some m =>
      rw [hm] at h
      dsimp only at h
      cases best with
      | none =>
        rcases ih _ _ h with h1 | h1
        · injection h1 with h2
          exact Or.inr (by rw [← h2]; exact List.mem_cons_self _ _)
        · exact Or.inr (List.mem_cons_of_mem _ h1)
      | some b =>
        dsimp only at h
        by_cases hlt : scoreOf now m < b.2
        · rw [if_pos hlt] at h
          rcases ih _ _ h with h1 | h1
          · injection h1 with h2
            exact Or.inr (by rw [← h2]; exact List.mem_cons_self _ _)
          · exact Or.inr (List.mem_cons_of_mem _ h1)
        · rw [if_neg hlt] at h
          rcases ih _ _ h with h1 | h1
          · exact Or.inl h1
          · exact Or.inr (List.mem_cons_of_mem _ h1)

theorem findLowest_mem (now : Nat) (s : WState) (k : Nat)
    (h : findLowest now s = some k) : k ∈ s.chunkAccessOrder := by
  unfold findLowest at h
  cases hf : findLowestAux now s.chunkMetadata s.chunkAccessOrder none with
  | none => rw [hf] at h; cases h
  | some pr =>
    rw [hf] at h
    simp only [Option.map_some'] at h
    injection h with h2
    rcases findLowestAux_mem now s.chunkMetadata s.chunkAccessOrder none pr hf with h1 | h1
    · cases h1
    · rw [← h2]; exact h1

theorem evictOnce_winv (maxCached now : Nat) (s : WState) (h : WInv maxCached s) :
    WInv maxCached (evictOnce now s) := by
  obtain ⟨hlen, hsub⟩ := h
  unfold evictOnce
  cases hf : findLowest now s with
  | some k =>
    refine ⟨le_trans (mapDelete_length_le _ _) hlen, ?_⟩
    intro j hj
    rw [mapGet_mapDelete] at hj
    by_cases hjk : j = k
    · rw [if_pos hjk] at hj; exact absurd rfl hj
    · rw [if_neg hjk] at hj
      exact (List.mem_erase_of_ne hjk).mpr (hsub j hj)
  | none =>
    cases ho : s.chunkAccessOrder with
    | nil => exact ⟨hlen, hsub⟩
    | cons k rest =>
      refine ⟨le_trans (mapDelete_length_le _ _) hlen, ?_⟩
      intro j hj
      rw [mapGet_mapDelete] at hj
      by_cases hjk : j = k
      · rw [if_pos hjk] at hj; exact absurd rfl hj
      · rw [if_neg hjk] at hj
        have := hsub j hj
        rw [ho] at this
        rcases List.mem_cons.mp this with h1 | h1
        · exact absurd h1 hjk
        · exact h1

theorem evictOnce_order_length (now : Nat) (s : WState)
    (h : s.chunkAccessOrder ≠ []) :
    (evictOnce now s).chunkAccessOrder.length < s.chunkAccessOrder.length := by
  unfold evictOnce
  cases hf : findLowest now s with
  | some k =>
    have hk : k ∈ s.chunkAccessOrder := findLowest_mem now s k hf
    have hpos : 0 < s.chunkAccessOrder.length := List.length_pos.mpr h
    simp only [List.length_erase_of_mem hk]
    omega
  | none =>
    cases ho : s.chunkAccessOrder with
    | nil => exact absurd ho h
    | cons k rest => simp [ho]

theorem evictLoop_post (maxCached now : Nat) :
    ∀ (fuel : Nat) (s : WState), s.chunkAccessOrder.length ≤ fuel →
      WInv maxCached s →
      WInv maxCached (evictLoop maxCached now fuel s) ∧
        ((evictLoop maxCached now fuel s).chunks.length < maxCached ∨
          (evictLoop maxCached now fuel s).chunkAccessOrder = []) := by
  intro fuel
  induction fuel with
  | zero =>
    intro s hf hinv
    have hnil : s.chunkAccessOrder = [] :=
      List.eq_nil_of_length_eq_zero (Nat.le_zero.mp hf)
    exact ⟨hinv, Or.inr hnil⟩
  | succ n ih =>
    intro s hf hinv
    rw [evictLoop]
    split
    · rename_i hguard
      have hlt := evictOnce_order_length now s hguard.2
      exact ih (evictOnce now s) (by omega) (evictOnce_winv maxCached now s hinv)
    · rename_i hguard
      refine ⟨hinv, ?_⟩
      rcases not_and_or.mp hguard with h1 | h1
      · exact Or.inl (Nat.lt_of_not_le h1)
      · exact Or.inr (not_not.mp h1)

theorem evictOldChunks_post (maxCached now : Nat) (s : WState)
    (hinv : WInv maxCached s) :
    WInv maxCached (evictOldChunks maxCached now s) ∧
      ((evictOldChunks maxCached now s).chunks.length < maxCached ∨
        (evictOldChunks maxCached now s).chunkAccessOrder = []) :=
  evictLoop_post maxCached now s.chunkAccessOrder.length s (Nat.le_refl _) hinv


theorem insertChunk_winv (maxCached now k : Nat) (rows : List (List String))
    (t : WState) (hmax : 1 ≤ maxCached) (ht : WInv maxCached t) :
    WInv maxCached (insertChunk maxCached now k rows t) := by
  obtain ⟨⟨hlen4, hsub4⟩, hpost⟩ := evictOldChunks_post maxCached now t ht
  unfold insertChunk
  refine ⟨?_, ?_⟩
  · show (mapSet (evictOldChunks maxCached now t).chunks k rows).length ≤ maxCached
    rcases hpost with hlt | hnil
    · exact le_trans (mapSet_length_le _ _ _) (by omega)
    · have hcn : (evictOldChunks maxCached now t).chunks = [] :=
        chunks_nil_of_order_nil _ hsub4 hnil
      rw [hcn]
      have hone : mapSet ([] : List (Nat × List (List String))) k rows = [(k, rows)] := by
        simp [mapSet, mapContains, mapGet]
      rw [hone]
      simpa using hmax
  · show ∀ j, mapGet (mapSet (evictOldChunks maxCached now t).chunks k rows) j ≠ none →
      j ∈ (evictOldChunks maxCached now t).chunkAccessOrder.erase k ++ [k]
    intro j hj
    by_cases hjk : j = k
    · exact mem_erase_append_self (Or.inr hjk)
    · rw [mapGet_mapSet_ne _ _ _ _ hjk] at hj
      exact mem_erase_append_self (Or.inl (hsub4 j hj))

theorem winv_of_fields (maxCached : Nat) (s t : WState)
    (hc : t.chunks = s.chunks) (ho : t.chunkAccessOrder = s.chunkAccessOrder)
    (h : WInv maxCached s) : WInv maxCached t := by
  constructor
  · rw [hc]; exact h.1
  · intro k hk
    rw [ho]
    exact h.2 k (by rw [← hc]; exact hk)

theorem recordMeta_chunks (k : Nat) (p : FetchPayload) (s : WState) :
    (recordMeta k p s).chunks = s.chunks := by
  unfold recordMeta
  cases p.etag <;> cases p.rowCount <;> dsimp only <;> split <;> rfl

theorem recordMeta_order (k : Nat) (p : FetchPayload) (s : WState) :
    (recordMeta k p s).chunkAccessOrder = s.chunkAccessOrder := by
  unfold recordMeta
  cases p.etag <;> cases p.rowCount <;> dsimp only <;> split <;> rfl

theorem recordMeta_inflight (k : Nat) (p : FetchPayload) (s : WState) :
    (recordMeta k p s).inflight = s.inflight := by
  unfold recordMeta
  cases p.etag <;> cases p.rowCount <;> dsimp only <;> split <;> rfl

theorem fetchChunk_winv (maxCached now k : Nat) (p : FetchPayload) (s : WState)
    (hmax : 1 ≤ maxCached) (h : WInv maxCached s) :
    WInv maxCached (fetchChunk maxCached now k p s) := by
  unfold fetchChunk
  split
  · have ht := winv_track maxCached now k s h
    exact ⟨ht.1, ht.2⟩
  · dsimp only
    have hpre : WInv maxCached (recordMeta k p s) :=
      winv_of_fields maxCached s _ (recordMeta_chunks k p s) (recordMeta_order k p s) h
    have hi := insertChunk_winv maxCached now k p.rows (recordMeta k p s) hmax hpre
    exact ⟨hi.1, hi.2⟩

theorem clearCache_winv (maxCached : Nat) (s : WState) :
    WInv maxCached (clearCache s) :=
  ⟨Nat.zero_le _, fun _ hj => absurd rfl hj⟩

theorem handleInit_winv (maxCached : Nat) (msg : InitMsg) (s : WState)
    (h : WInv maxCached s) : WInv maxCached (handleInit msg s) := by
  unfold handleInit
  dsimp only
  split
  · exact ⟨Nat.zero_le _, fun _ hj => absurd rfl hj⟩
  · exact ⟨h.1, h.2⟩

theorem invalidateStep_winv (maxCached : Nat) (s : WState) (r : Int)
    (h : WInv maxCached s) : WInv maxCached (invalidateStep s r) := by
  unfold invalidateStep
  split
  · dsimp only
    refine ⟨le_trans (mapDelete_length_le _ _) h.1, ?_⟩
    intro j hj
    rw [mapGet_mapDelete] at hj
    by_cases hjc : j = Int.toNat r / s.chunkSize
    · rw [if_pos hjc] at hj; exact absurd rfl hj
    · rw [if_neg hjc] at hj
      exact (List.mem_erase_of_ne hjc).mpr (h.2 j hj)
  · exact h

theorem handleInvalidate_winv (maxCached : Nat) (rows : List Int) :
    ∀ s : WState, WInv maxCached s → WInv maxCached (handleInvalidate rows s) := by
  induction rows with
  | nil => intro s h; exact h
  | cons r rest ih =>
    intro s h
    exact ih (invalidateStep s r) (invalidateStep_winv maxCached s r h)

theorem gatherStep_winv (maxCached now : Nat)
    (acc : List (Nat × List String) × WState) (i : Nat)
    (h : WInv maxCached acc.2) : WInv maxCached (gatherStep now acc i).2 := by
  unfold gatherStep
  dsimp only
  split
  · exact h
  · split
    · exact winv_track maxCached now _ acc.2 h
    · exact winv_track maxCached now _ acc.2 h

theorem gatherFold_winv (maxCached now : Nat) :
    ∀ (idxs : List Nat) (acc : List (Nat × List String) × WState),
      WInv maxCached acc.2 → WInv maxCached (idxs.foldl (gatherStep now) acc).2 := by
  intro idxs
  induction idxs with
  | nil => intro acc h; exact h
  | cons i rest ih =>
    intro acc h
    exact ih _ (gatherStep_winv maxCached now acc i h)

theorem gatherRows_winv (maxCached now : Nat) (s : WState) (start e : Nat)
    (h : WInv maxCached s) : WInv maxCached (gatherRows now s start e).state := by
  unfold gatherRows
  dsimp only
  exact gatherFold_winv maxCached now _ ([], s) h

theorem applyWAct_winv (maxCached : Nat) (hmax : 1 ≤ maxCached) (s : WState)
    (a : WAct) (h : WInv maxCached s) : WInv maxCached (applyWAct maxCached s a) := by
  cases a with
  | configure msg => exact handleInit_winv maxCached msg s h
  | ensure k =>
    show WInv maxCached (ensureChunk s k)
    unfold ensureChunk
    split
    · exact ⟨h.1, h.2⟩
    · exact h
  | fetchDone k p now => exact fetchChunk_winv maxCached now k p s hmax h
  | fetchFail k => exact ⟨h.1, h.2⟩
  | gather start e now => exact gatherRows_winv maxCached now s start e h
  | invalidate rows => exact handleInvalidate_winv maxCached rows s h
  | reset => exact clearCache_winv maxCached s

theorem runWorker_winv (maxCached : Nat) (hmax : 1 ≤ maxCached)
    (acts : List WAct) : WInv maxCached (runWorker maxCached acts) := by
  unfold runWorker
  have hgen : ∀ (l : List WAct) (s : WState), WInv maxCached s →
      WInv maxCached (l.foldl (applyWAct maxCached) s) := by
    intro l
    induction l with
    | nil => intro s h; exact h
    | cons a rest ih =>
      intro s h
      exact ih _ (applyWAct_winv maxCached hmax s a h)
  exact hgen acts initW ⟨Nat.zero_le _, fun _ hj => absurd rfl hj⟩

theorem findLowestAux_min (now : Nat) (meta : List (Nat × ChunkMeta)) :
    ∀ (order : List Nat) (best : Option (Nat × Int)) (pr : Nat × Int),
      findLowestAux now meta order best = some pr →
      (∀ (j : Nat) (mj : ChunkMeta), j ∈ order → mapGet meta j = some mj →
        pr.2 ≤ scoreOf now mj) ∧
      (∀ b : Nat × Int, best = some b → pr.2 ≤ b.2) ∧
      (best = some pr ∨
        (pr.1 ∈ order ∧ ∃ mk : ChunkMeta, mapGet meta pr.1 = some mk ∧
          pr.2 = scoreOf now mk)) := by
  intro order
  induction order with
  | nil =>
    intro best pr h
    rw [findLowestAux] at h
    refine ⟨?_, ?_, Or.inl h⟩
    · intro j mj hj _
      exact absurd hj (List.not_mem_nil _)
    · intro b hb
      rw [hb] at h
      injection h with h2
      exact le_of_eq (by rw [h2])
  | cons k rest ih =>
    intro best pr h
    rw [findLowestAux] at h
    cases hm : mapGet meta k with
    | none =>
      rw [hm] at h
      obtain ⟨hmin, hbest, hloc⟩ := ih best pr h
      refine ⟨?_, hbest, ?_⟩
      · intro j mj hj hmj
        rcases List.mem_cons.mp hj with hj1 | hj1
        · rw [hj1] at hmj
          rw [hm] at hmj
          cases hmj
        · exact hmin j mj hj1 hmj
      · rcases hloc with h1 | ⟨h1, h2⟩
        · exact Or.inl h1
        · exact Or.inr ⟨List.mem_cons_of_mem _ h1, h2⟩
    | some m =>
      rw [hm] at h
      dsimp only at h
      cases best with
      | none =>
        obtain ⟨hmin, hbest, hloc⟩ := ih (some (k, scoreOf now m)) pr h
        have hple : pr.2 ≤ scoreOf now m := hbest (k, scoreOf now m) rfl
        refine ⟨?_, ?_, ?_⟩
        · intro j mj hj hmj
          rcases List.mem_cons.mp hj with hj1 | hj1
          · rw [hj1, hm] at hmj
            injection hmj with hmj2
            rw [← hmj2]
            exact hple
          · exact hmin j mj hj1 hmj
        · intro b hb
          cases hb
        · rcases hloc with h1 | ⟨h1, h2⟩
          · injection h1 with h12
            refine Or.inr ⟨?_, ⟨m, ?_, ?_⟩⟩
            · rw [← h12]; exact List.mem_cons_self _ _
            · rw [← h12]; exact hm
            · rw [← h12]
          · exact Or.inr ⟨List.mem_cons_of_mem _ h1, h2⟩
      | some b =>
        dsimp only at h
        by_cases hlt : scoreOf now m < b.2
        · rw [if_pos hlt] at h
          obtain ⟨hmin, hbest, hloc⟩ := ih (some (k, scoreOf now m)) pr h
          have hple : pr.2 ≤ scoreOf now m := hbest (k, scoreOf now m) rfl
          refine ⟨?_, ?_, ?_⟩
          · intro j mj hj hmj
            rcases List.mem_cons.mp hj with hj1 | hj1
            · rw [hj1, hm] at hmj
              injection hmj with hmj2
              rw [← hmj2]
              exact hple
            · exact hmin j mj hj1 hmj
          · intro b0 hb0
            injection hb0 with hb02
            rw [← hb02]
            exact le_trans hple (le_of_lt hlt)
          · rcases hloc with h1 | ⟨h1, h2⟩
            · injection h1 with h12
              refine Or.inr ⟨?_, ⟨m, ?_, ?_⟩⟩
              · rw [← h12]; exact List.mem_cons_self _ _
              · rw [← h12]; exact hm
              · rw [← h12]
            · exact Or.inr ⟨List.mem_cons_of_mem _ h1, h2⟩
        · rw [if_neg hlt] at h
          obtain ⟨hmin, hbest, hloc⟩ := ih (some b) pr h
          have hpb : pr.2 ≤ b.2 := hbest b rfl
          have hbm : b.2 ≤ scoreOf now m := Int.not_lt.mp hlt
          refine ⟨?_, ?_, ?_⟩
          · intro j mj hj hmj
            rcases List.mem_cons.mp hj with hj1 | hj1
            · rw [hj1, hm] at hmj
              injection hmj with hmj2
              rw [← hmj2]
              exact le_trans hpb hbm
            · exact hmin j mj hj1 hmj
          · intro b0 hb0
            injection hb0 with hb02
            rw [← hb02]
            exact hpb
          · rcases hloc with h1 | ⟨h1, h2⟩
            · exact Or.inl h1
            · exact Or.inr ⟨List.mem_cons_of_mem _ h1, h2⟩

theorem findLowest_min (now : Nat) (s : WState) (k : Nat)
    (h : findLowest now s = some k) :
    k ∈ s.chunkAccessOrder ∧
      ∃ mk : ChunkMeta, mapGet s.chunkMetadata k = some mk ∧
        ∀ (j : Nat) (mj : ChunkMeta), j ∈ s.chunkAccessOrder →
          mapGet s.chunkMetadata j = some mj → scoreOf now mk ≤ scoreOf now mj := by
  unfold findLowest at h
  cases hf : findLowestAux now s.chunkMetadata s.chunkAccessOrder none with
  | none => rw [hf] at h; cases h
  | some pr =>
    rw [hf] at h
    simp only [Option.map_some'] at h
    injection h with h2
    obtain ⟨hmin, _, hloc⟩ :=
      findLowestAux_min now s.chunkMetadata s.chunkAccessOrder none pr hf
    rcases hloc with h1 | ⟨h1, mk, hmk, hsc⟩
    · cases h1
    · subst h2
      refine ⟨h1, mk, hmk, ?_⟩
      intro j mj hj hmj
      rw [← hsc]
      exact hmin j mj hj hmj

/-- Claim C2: after any sequence of worker actions (init, ensureChunk calls,
fetch completions and failures, gatherRows passes, invalidations, resets) the
number of cached chunks never exceeds `MAX_CACHED_CHUNKS`; and whenever the
eviction scan selects a victim, that victim is a recency-list entry of lowest
score `accessCount * 1000 - age` among all entries carrying metadata (eviction
runs before the insert inside `fetchChunk`, see `insertChunk`). -/
theorem tableWorker_cache_bound (maxCached : Nat) (hmax : 1 ≤ maxCached) :
    (∀ acts : List WAct, (runWorker maxCached acts).chunks.length ≤ maxCached) ∧
    (∀ (now : Nat) (s : WState) (k : Nat), findLowest now s = some k →
      k ∈ s.chunkAccessOrder ∧
        ∃ mk : ChunkMeta, mapGet s.chunkMetadata k = some mk ∧
          ∀ (j : Nat) (mj : ChunkMeta), j ∈ s.chunkAccessOrder →
            mapGet s.chunkMetadata j = some mj →
              scoreOf now mk ≤ scoreOf now mj) := by
  constructor
  · intro acts
    exact (runWorker_winv maxCached hmax acts).1
  · intro now s k h
    exact findLowest_min now s k h

theorem tableWorker_cache_bound_witness :
    (runWorker 50 [WAct.ensure 0,
        WAct.fetchDone 0 ⟨false, none, [], [["x"]], some 1⟩ 5,
        WAct.gather 0 0 6]).chunks.length ≤ 50 :=
  (tableWorker_cache_bound 50 (by decide)).1 _

theorem trackChunkAccess_inflight (now k : Nat) (s : WState) :
    (trackChunkAccess now k s).inflight = s.inflight := rfl

theorem evictOnce_inflight (now : Nat) (s : WState) :
    (evictOnce now s).inflight = s.inflight := by
  unfold evictOnce
  split
  · rfl
  · split
    · rfl
    · rfl

theorem evictLoop_inflight (maxCached now : Nat) :
    ∀ (fuel : Nat) (s : WState),
      (evictLoop maxCached now fuel s).inflight = s.inflight := by
  intro fuel
  induction fuel with
  | zero => intro s; rfl
  | succ n ih =>
    intro s
    rw [evictLoop]
    split
    · rw [ih, evictOnce_inflight]
    · rfl

theorem insertChunk_inflight (maxCached now k : Nat) (rows : List (List String))
    (t : WState) : (insertChunk maxCached now k rows t).inflight = t.inflight := by
  show (evictLoop maxCached now t.chunkAccessOrder.length t).inflight = t.inflight
  exact evictLoop_inflight maxCached now _ t

theorem fetchChunk_inflight (maxCached now k : Nat) (p : FetchPayload) (s : WState) :
    (fetchChunk maxCached now k p s).inflight = s.inflight.erase k := by
  unfold fetchChunk
  split
  · rfl
  · show (insertChunk maxCached now k p.rows (recordMeta k p s)).inflight.erase k
      = s.inflight.erase k
    rw [insertChunk_inflight, recordMeta_inflight]

theorem gatherStep_inflight (now : Nat) (acc : List (Nat × List String) × WState)
    (i : Nat) : (gatherStep now acc i).2.inflight = acc.2.inflight := by
  unfold gatherStep
  dsimp only
  split
  · rfl
  · split
    · rfl
    · rfl

theorem gatherFold_inflight (now : Nat) :
    ∀ (idxs : List Nat) (acc : List (Nat × List String) × WState),
      (idxs.foldl (gatherStep now) acc).2.inflight = acc.2.inflight := by
  intro idxs
  induction idxs with
  | nil => intro acc; rfl
  | cons i rest ih =>
    intro acc
    rw [List.foldl_cons, ih, gatherStep_inflight]

theorem gatherRows_inflight (now : Nat) (s : WState) (start e : Nat) :
    (gatherRows now s start e).state.inflight = s.inflight := by
  unfold gatherRows
  dsimp only
  exact gatherFold_inflight now _ ([], s)

/-- Claim C7: `ensureChunk` issues a network fetch only for a chunk that is
neither cached nor in flight (a call for an in-flight key joins the existing
fetch and issues nothing); an issued fetch registers the key in `inflight`;
and a key stays in `inflight` across any actions other than the completion or
failure of its own fetch, an invalidation, a reset, or an `init` — so two
requests processed concurrently for the same uncached chunk trigger exactly
one fetch. -/
theorem ensureChunk_fetch_dedup :
    (∀ (s : WState) (k : Nat), k ∈ s.inflight → ensureChunkFetches s k = false) ∧
    (∀ (s : WState) (k : Nat), ensureChunkFetches s k = true →
      k ∉ s.inflight ∧ k ∈ (ensureChunk s k).inflight) ∧
    (∀ (maxCached k : Nat) (acts : List WAct) (s : WState), k ∈ s.inflight →
      (∀ a ∈ acts, ¬ removesInflightKey k a) →
      k ∈ (acts.foldl (applyWAct maxCached) s).inflight) := by
  refine ⟨?_, ?_, ?_⟩
  · intro s k h
    simp [ensureChunkFetches, h]
  · intro s k h
    have h2 : k ∉ s.inflight := by
      intro hk
      simp [ensureChunkFetches, hk] at h
    refine ⟨h2, ?_⟩
    unfold ensureChunk
    rw [if_pos h]
    exact List.mem_append_right _ (List.mem_singleton_self _)
  · intro maxCached k acts
    induction acts with
    | nil => intro s h _; exact h
    | cons a rest ih =>
      intro s h hrem
      rw [List.foldl_cons]
      apply ih
      · have hna : ¬ removesInflightKey k a := hrem a (List.mem_cons_self _ _)
        cases a with
        | configure msg => exact absurd trivial hna
        | invalidate rows => exact absurd trivial hna
        | reset => exact absurd trivial hna
        | fetchDone k2 p now =>
          have hne : k ≠ k2 := fun hh => hna hh.symm
          show k ∈ (fetchChunk maxCached now k2 p s).inflight
          rw [fetchChunk_inflight]
          exact (List.mem_erase_of_ne hne).mpr h
        | fetchFail k2 =>
          have hne : k ≠ k2 := fun hh => hna hh.symm
          exact (List.mem_erase_of_ne hne).mpr h
        | ensure k2 =>
          show k ∈ (ensureChunk s k2).inflight
          unfold ensureChunk
          split
          · exact List.mem_append_left _ h
          · exact h
        | gather start e now =>
          show k ∈ (gatherRows now s start e).state.inflight
          rw [gatherRows_inflight]
          exact h
      · intro a2 ha2
        exact hrem a2 (List.mem_cons_of_mem _ ha2)

theorem ensureChunk_fetch_dedup_witness :
    ensureChunkFetches { initW with inflight := [3] } 3 = false :=
  ensureChunk_fetch_dedup.1 { initW with inflight := [3] } 3 (by decide)

theorem affectedChunks_cons (chunkSize : Nat) (r : Int) (rest : List Int) :
    affectedChunks chunkSize (r :: rest) =
      if 0 ≤ r then Int.toNat r / chunkSize :: affectedChunks chunkSize rest
      else affectedChunks chunkSize rest := by
  unfold affectedChunks
  by_cases hr : 0 ≤ r <;> simp [List.filterMap_cons, hr]

theorem invalidateStep_chunkSize (s : WState) (r : Int) :
    (invalidateStep s r).chunkSize = s.chunkSize := by
  unfold invalidateStep
  split
  · rfl
  · rfl

theorem handleInvalidate_chunks (rows : List Int) :
    ∀ s : WState,
      (handleInvalidate rows s).chunkSize = s.chunkSize ∧
      (∀ k, k ∉ affectedChunks s.chunkSize rows →
        mapGet (handleInvalidate rows s).chunks k = mapGet s.chunks k) ∧
      (∀ k, k ∈ affectedChunks s.chunkSize rows →
        mapGet (handleInvalidate rows s).chunks k = none) := by
  induction rows with
  | nil =>
    intro s
    exact ⟨rfl, fun k _ => rfl, fun k hk => absurd hk (List.not_mem_nil _)⟩
  | cons r rest ih =>
    intro s
    have hstep : handleInvalidate (r :: rest) s
        = handleInvalidate rest (invalidateStep s r) := rfl
    obtain ⟨ihsize, ihkeep, ihdrop⟩ := ih (invalidateStep s r)
    have hsize : (invalidateStep s r).chunkSize = s.chunkSize :=
      invalidateStep_chunkSize s r
    rw [hsize] at ihkeep ihdrop
    rw [hstep]
    by_cases hr : 0 ≤ r
    · have hac : affectedChunks s.chunkSize (r :: rest)
          = Int.toNat r / s.chunkSize :: affectedChunks s.chunkSize rest := by
        rw [affectedChunks_cons, if_pos hr]
      have hchunks : (invalidateStep s r).chunks
          = mapDelete s.chunks (Int.toNat r / s.chunkSize) := by
        unfold invalidateStep
        rw [if_pos hr]
      refine ⟨?_, ?_, ?_⟩
      · rw [ihsize, hsize]
      · intro k hk
        rw [hac] at hk
        have hk1 : k ≠ Int.toNat r / s.chunkSize :=
          fun hh => hk (by rw [hh]; exact List.mem_cons_self _ _)
        have hk2 : k ∉ affectedChunks s.chunkSize rest :=
          fun hh => hk (List.mem_cons_of_mem _ hh)
        rw [ihkeep k hk2, hchunks, mapGet_mapDelete, if_neg hk1]
      · intro k hk
        rw [hac] at hk
        by_cases hkrest : k ∈ affectedChunks s.chunkSize rest
        · exact ihdrop k hkrest
        · have hk1 : k = Int.toNat r / s.chunkSize := by
            rcases List.mem_cons.mp hk with h1 | h1
            · exact h1
            · exact absurd h1 hkrest
          rw [ihkeep k hkrest, hchunks, mapGet_mapDelete, if_pos hk1]
    · have hac : affectedChunks s.chunkSize (r :: rest)
          = affectedChunks s.chunkSize rest := by
        rw [affectedChunks_cons, if_neg hr]
      have hnostep : invalidateStep s r = s := by
        unfold invalidateStep
        rw [if_neg hr]
      rw [hnostep] at ihsize ihkeep ihdrop
      rw [hnostep, hac]
      exact ⟨ihsize, ihkeep, ihdrop⟩

/-- Claim C9: a mutation notification removes from the cache exactly the
chunks containing the reported row indices (`ChunkKey = rowIndex /
chunkSize`); every other cached chunk is left unchanged, and a subsequent
access to such a chunk issues no fetch. -/
theorem handleInvalidate_targeted (s : WState) (rows : List Int) :
    (handleInvalidate rows s).chunkSize = s.chunkSize ∧
    (∀ k, k ∉ affectedChunks s.chunkSize rows →
      mapGet (handleInvalidate rows s).chunks k = mapGet s.chunks k) ∧
    (∀ k, k ∈ affectedChunks s.chunkSize rows →
      mapGet (handleInvalidate rows s).chunks k = none) ∧
    (∀ k, k ∉ affectedChunks s.chunkSize rows → mapContains s.chunks k = true →
      ensureChunkFetches (handleInvalidate rows s) k = false) := by
  obtain ⟨h1, h2, h3⟩ := handleInvalidate_chunks rows s
  refine ⟨h1, h2, h3, ?_⟩
  intro k hk hc
  have hcontains : mapContains (handleInvalidate rows s).chunks k = true := by
    unfold mapContains at hc ⊢
    rw [h2 k hk]
    exact hc
  simp only [ensureChunkFetches, hcontains, Bool.not_true, Bool.false_and]

theorem handleInvalidate_targeted_witness :
    mapGet (handleInvalidate [5] c9State).chunks 1 = mapGet c9State.chunks 1 ∧
    mapGet (handleInvalidate [5] c9State).chunks 0 = none :=
  ⟨(handleInvalidate_targeted c9State [5]).2.1 1 (by decide),
   (handleInvalidate_targeted c9State [5]).2.2.1 0 (by decide)⟩

/-- Claim C6 (code-bug evidence): `gatherRows` iterates `rowIndex` up to
`Math.max(end, rowCount - 1)` instead of clamping to the requested `end`.
With chunk size 1, row count 3 and chunks 0..2 cached, a request for rows
`[0, 0]` returns the rows with indices 0, 1 and 2 — rows outside the clamped
request range are delivered, where the contract requires exactly row 0. -/
theorem gatherRows_overruns_requested_end :
    ((gatherRows 0 c6State 0 0).rows.map (fun pr => pr.1)) = [0, 1, 2] ∧
    (gatherRows 0 c6State 0 0).rowCount = 3 := by
  constructor
  · decide
  · decide

theorem csvSteps_append_split {c c2 : CsvCfg} {l1 l2 : List CsvEvent}
    (h : CsvSteps c (l1 ++ l2) c2) :
    ∃ cm : CsvCfg, CsvSteps c l1 cm ∧ CsvSteps cm l2 c2 := by
  induction l1 generalizing c with
  | nil => exact ⟨c, CsvSteps.nil c, h⟩
  | cons e rest ih =>
    cases h with
    | cons hstep hrest =>
      obtain ⟨cm, h1, h2⟩ := ih hrest
      exact ⟨cm, CsvSteps.cons hstep h1, h2⟩

theorem awaitAck_stable :
    ∀ (ys : List CsvEvent) (c c2 : CsvCfg) (n : Nat),
      c.pc = CsvPc.awaitingAck n → CsvSteps c ys c2 →
      (∀ j, CsvEvent.ack j ∉ ys) → CsvEvent.read ∉ ys := by
  intro ys
  induction ys with
  | nil =>
    intro c c2 n _ _ _
    exact List.not_mem_nil _
  | cons e rest ih =>
    intro c c2 n hpc hsteps hacks
    cases hsteps with
    | cons hstep hrest =>
      cases hstep with
      | read n' p id => exact CsvPc.noConfusion hpc
      | post n' p id => exact CsvPc.noConfusion hpc
      | ackRun n' id j => exact absurd (List.mem_cons_self _ _) (hacks j)
      | ackPause n' id j => exact absurd (List.mem_cons_self _ _) (hacks j)
      | ackNoop pc p id j hn => exact absurd (List.mem_cons_self _ _) (hacks j)
      | pauseSig pc p id =>
        intro hmem
        rcases List.mem_cons.mp hmem with h1 | h1
        · exact CsvEvent.noConfusion h1
        · exact ih ⟨pc, true, id⟩ c2 n hpc hrest
            (fun j hj => hacks j (List.mem_cons_of_mem _ hj)) h1
      | resumeRelease n' p id => exact CsvPc.noConfusion hpc
      | resumeNoop pc p id hn =>
        intro hmem
        rcases List.mem_cons.mp hmem with h1 | h1
        · exact CsvEvent.noConfusion h1
        · exact ih ⟨pc, false, id⟩ c2 n hpc hrest
            (fun j hj => hacks j (List.mem_cons_of_mem _ hj)) h1

theorem awaitResume_stable :
    ∀ (ys : List CsvEvent) (c c2 : CsvCfg) (n : Nat),
      c.pc = CsvPc.awaitingResume n → CsvSteps c ys c2 →
      CsvEvent.resume ∉ ys → ∀ i, CsvEvent.post i ∉ ys := by
  intro ys
  induction ys with
  | nil =>
    intro c c2 n _ _ _ i
    exact List.not_mem_nil _
  | cons e rest ih =>
    intro c c2 n hpc hsteps hres i
    cases hsteps with
    | cons hstep hrest =>
      cases hstep with
      | read n' p id => exact CsvPc.noConfusion hpc
      | post n' p id => exact CsvPc.noConfusion hpc
      | ackRun n' id j => exact CsvPc.noConfusion hpc
      | ackPause n' id j => exact CsvPc.noConfusion hpc
      | ackNoop pc p id j hn =>
        intro hmem
        rcases List.mem_cons.mp hmem with h1 | h1
        · exact CsvEvent.noConfusion h1
        · exact ih _ c2 n hpc hrest
            (fun hj => hres (List.mem_cons_of_mem _ hj)) i h1
      | pauseSig pc p id =>
        intro hmem
        rcases List.mem_cons.mp hmem with h1 | h1
        · exact CsvEvent.noConfusion h1
        · exact ih ⟨pc, true, id⟩ c2 n hpc hrest
            (fun hj => hres (List.mem_cons_of_mem _ hj)) i h1
      | resumeRelease n' p id => exact absurd (List.mem_cons_self _ _) hres
      | resumeNoop pc p id hn => exact absurd (List.mem_cons_self _ _) hres

/-- Claim C8 counterexample: the worker's ack handler never inspects the
ack's batch id, so a duplicate ack for batch 1 releases the wait for batch 2
and the producer reads on although no ack for batch 2 ever arrived.  The
trace read, post 1, ack 1, post 2, ack 1, read is derivable, refuting the
claim as stated. -/
theorem backpressure_ack_id_ignored : ¬ C8OrigClaim := by
  intro h
  have deriv : CsvSteps csvInit
      [CsvEvent.read, CsvEvent.post 1, CsvEvent.ack 1, CsvEvent.post 2,
        CsvEvent.ack 1, CsvEvent.read] ⟨CsvPc.producing 0, false, 2⟩ :=
    CsvSteps.cons (CsvStep.read 2 false 0)
      (CsvSteps.cons (CsvStep.post 1 false 0)
        (CsvSteps.cons (CsvStep.ackRun 1 1 1)
          (CsvSteps.cons (CsvStep.post 0 false 1)
            (CsvSteps.cons (CsvStep.ackRun 0 2 1)
              (CsvSteps.cons (CsvStep.read 0 false 2)
                (CsvSteps.nil _))))))
  have hread := h _ _ deriv 2
    [CsvEvent.read, CsvEvent.post 1, CsvEvent.ack 1]
    [CsvEvent.ack 1, CsvEvent.read] [] (by decide) (by decide)
  exact absurd (by decide : CsvEvent.read ∈ [CsvEvent.ack 1, CsvEvent.read]) hread

/-- Claim C8 amended: after posting a batch the producer suspends in
`waitForAck`, and performs no further read until some acknowledgement message
arrives — the handler does not check the ack's batch id; and when an
acknowledgement arrives while `Pause` is asserted, the producer suspends in
`waitForResume` and posts no further batch until `Resume` is asserted. -/
theorem backpressure_no_read_until_ack :
    (∀ (c c2 : CsvCfg) (e : CsvEvent), CsvStep c e c2 →
      (∃ i, e = CsvEvent.post i) → ∃ n, c2.pc = CsvPc.awaitingAck n) ∧
    (∀ (ys : List CsvEvent) (c c2 : CsvCfg) (n : Nat),
      c.pc = CsvPc.awaitingAck n → CsvSteps c ys c2 →
      (∀ j, CsvEvent.ack j ∉ ys) → CsvEvent.read ∉ ys) ∧
    (∀ (ys zs : List CsvEvent) (c c2 : CsvCfg) (n j : Nat),
      c.pc = CsvPc.awaitingAck n → c.paused = true →
      CsvSteps c (CsvEvent.ack j :: (ys ++ zs)) c2 →
      CsvEvent.resume ∉ ys → ∀ i, CsvEvent.post i ∉ ys) := by
  refine ⟨?_, awaitAck_stable, ?_⟩
  · intro c c2 e hstep hpost
    obtain ⟨i, hi⟩ := hpost
    subst hi
    cases hstep with
    | post n p id => exact ⟨n, rfl⟩
  · intro ys zs c c2 n j hpc hpause hsteps hres i
    cases hsteps with
    | cons hstep hrest =>
      cases hstep with
      | ackRun n' id j' => exact Bool.noConfusion hpause
      | ackPause n' id j' =>
        obtain ⟨cm, h1, h2⟩ := csvSteps_append_split hrest
        exact awaitResume_stable ys _ cm n' rfl h1 hres i
      | ackNoop pc p id j' hn => exact absurd hpc (hn n)

theorem backpressure_no_read_until_ack_witness :
    CsvEvent.read ∉ ([CsvEvent.pause] : List CsvEvent) :=
  backpressure_no_read_until_ack.2.1 [CsvEvent.pause]
    ⟨CsvPc.awaitingAck 0, false, 1⟩ ⟨CsvPc.awaitingAck 0, true, 1⟩ 0 rfl
    (CsvSteps.cons (CsvStep.pauseSig (CsvPc.awaitingAck 0) false 1)
      (CsvSteps.nil _))
    (fun j hj => CsvEvent.noConfusion (List.mem_singleton.mp hj))
